import Mathlib

/-!
Verification of the safe-utils multisig transaction encoding scripts.

The Python sources are shallowly embedded as follows:

* textual hex strings become `List Char` (Python string slicing, `zfill`,
  `lower`, `replace` and `sorted` are modelled by the corresponding list
  operations);
* byte strings become `List Nat` with every element intended `< 256`;
* unbounded Python integers become `Nat`;
* `int.to_bytes` and the eth-abi encoder, which raise on out-of-range
  values or arity mismatches, return `Option`;
* `keccak` is an abstract parameter `List Nat → List Nat` (a fixed
  32-byte-output hash function): every property proved here is purely
  structural in the hash, so it holds for the real keccak-256.
-/

set_option maxRecDepth 100000

namespace SafeUtils

/-! ### Characters and hex rendering / parsing primitives -/

/-- Lower-case hex digit character for a nibble, as produced by Python
`hex()` / `bytes.hex()` (codepoint 48 + d for d < 10, 87 + d otherwise). -/
def hexDigitChar (d : Nat) : Char :=
  if d < 10 then Char.ofNat (48 + d) else Char.ofNat (87 + d)

/-- The sixteen lower-case hex digit characters, `0` to `9` then `a` to `f`. -/
def lowerHexChars : List Char := (List.range 16).map hexDigitChar

/-- All hex digit characters, both cases. -/
def hexCharsAll : List Char :=
  lowerHexChars ++ ['A', 'B', 'C', 'D', 'E', 'F']

def isHexChar (c : Char) : Bool := decide (c ∈ hexCharsAll)

/-- Value of a hex digit character, as accepted by Python `int(s, 16)`. -/
def hexCharVal (c : Char) : Nat :=
  if 48 ≤ c.toNat ∧ c.toNat ≤ 57 then c.toNat - 48
  else if 97 ≤ c.toNat ∧ c.toNat ≤ 102 then c.toNat - 87
  else if 65 ≤ c.toNat ∧ c.toNat ≤ 70 then c.toNat - 55
  else 0

def hexStep (a : Nat) (c : Char) : Nat := 16 * a + hexCharVal c

/-- Big-endian hex parse of a digit string, Python `int(s, 16)`. -/
def hexToNat (l : List Char) : Nat := l.foldl hexStep 0

/-- Fuelled big-endian base-`b` digit extraction; with fuel at least the
number of digits of `n` it returns the digits of `n` most-significant
first, with no leading zeros and `[]` for `0`. -/
def digitsAuxBE (b : Nat) : Nat → Nat → List Nat
  | 0, _ => []
  | fuel + 1, n => if n = 0 then [] else digitsAuxBE b fuel (n / b) ++ [n % b]

/-- Python `hex(n)[2:]`: minimal-length lower-case hex rendering, `"0"` for `0`. -/
def natToHexL (n : Nat) : List Char :=
  if n = 0 then ['0'] else (digitsAuxBE 16 n n).map hexDigitChar

/-- Minimal big-endian byte rendering of `n` (`[]` for `0`). -/
def beBytes (n : Nat) : List Nat := digitsAuxBE 256 n n

/-- `n` as exactly `len` big-endian bytes (assuming it fits). -/
def bePad (len n : Nat) : List Nat :=
  List.replicate (len - (beBytes n).length) 0 ++ beBytes n

/-- Python `n.to_bytes(len, byteorder = big)`: fails iff `n` does not fit. -/
def toBytesBE? (n len : Nat) : Option (List Nat) :=
  if n < 256 ^ len then some (bePad len n) else none

/-- Python `str.zfill(w)` on an unsigned digit string. -/
def zfillL (s : List Char) (w : Nat) : List Char :=
  List.replicate (w - s.length) '0' ++ s

/-- Two lower-case hex characters of one byte, as in `bytes.hex()`. -/
def byteToHexL (b : Nat) : List Char := [hexDigitChar (b / 16), hexDigitChar (b % 16)]

/-- Python `bytes.hex()`. -/
def bytesToHexL (bs : List Nat) : List Char := (bs.map byteToHexL).flatten

/-- Python `str.lower()` (ASCII input). -/
def toLowerL (l : List Char) : List Char := l.map Char.toLower

/-- Python `s.replace(0x-literal, empty)`: removes every (non-overlapping,
left-to-right) occurrence of the two-character sequence `0x`. -/
def strip0xAll : List Char → List Char
  | [] => []
  | [c] => [c]
  | c1 :: c2 :: rest =>
    if c1 = '0' ∧ c2 = 'x' then strip0xAll rest
    else c1 :: strip0xAll (c2 :: rest)

/-- Python slice `s[-n:]`. -/
def lastN (n : Nat) (l : List α) : List α := l.drop (l.length - n)

/-- Python string `<=` (codepoint-lexicographic), the order used by `sorted`. -/
def lexLe : List Char → List Char → Bool
  | [], _ => true
  | _ :: _, [] => false
  | a :: as, b :: bs =>
    if a.toNat < b.toNat then true
    else if b.toNat < a.toNat then false
    else lexLe as bs

def addrLe (a b : List Char) : Prop := lexLe a b = true

instance : DecidableRel addrLe := fun a b => by unfold addrLe; infer_instance

/-- UTF-8 bytes of an (ASCII) text, as hashed by `keccak(text=...)`. -/
def textToBytes (s : String) : List Nat := s.data.map Char.toNat

/-! ### approved_hash_signer.py -/

/-- `create_approved_hash_signature(owner_address)`: strips `0x`, lower-cases,
and builds the 130-hex-char pre-validated signature entry
(24 zero chars ++ address ++ 64 zero chars ++ `01`). -/
def create_approved_hash_signature (owner_address : List Char) : List Char :=
  let clean_address := toLowerL (strip0xAll owner_address)
  List.replicate 24 '0' ++ clean_address ++ List.replicate 64 '0' ++ ['0', '1']

/-- `create_multiple_approved_signatures(addresses)`: lower-cases, sorts with
Python `sorted` (a stable ascending sort, modelled by `insertionSort` over the
codepoint-lexicographic order — observationally identical for a total
antisymmetric order), builds each signature and concatenates behind `0x`.
Note: the source does NOT deduplicate. -/
def create_multiple_approved_signatures (addresses : List (List Char)) : List Char :=
  let sorted_addresses := List.insertionSort addrLe (addresses.map toLowerL)
  '0' :: 'x' :: (sorted_addresses.map create_approved_hash_signature).flatten

/-! ### safe_tx_helper.py `encode_transfer_data` and decode_tx_data.py -/

/-- The fixed `transfer(address,uint256)` selector hex digits `a9059cbb`. -/
def transferSelChars : List Char := ['a', '9', '0', '5', '9', 'c', 'b', 'b']

/-- `encode_transfer_data(recipient, amount)` from safe_tx_helper.py (the same
expression is inlined in quick_safe_tx.py, decode_tx_data.py and
multisend_safe_tx.py): `0xa9059cbb` ++ recipient hex lower-cased and
`zfill`ed to 64 ++ `hex(amount)[2:]` `zfill`ed to 64.  The recipient is
modelled as its 20 validated address bytes, whose lower-case hex rendering
is what `Web3.to_checksum_address(recipient)[2:].lower()` yields. -/
def encode_transfer_data (recipient : List Nat) (amount : Nat) : List Char :=
  '0' :: 'x' :: (transferSelChars
    ++ zfillL (bytesToHexL recipient) 64
    ++ zfillL (natToHexL amount) 64)

structure DecodedTransfer where
  function_selector : List Char
  function_name : List Char
  recipient : List Char
  amount : Nat
  deriving DecidableEq

def transferSigText : String := "transfer(address,uint256)"

/-- `decode_transfer_data(data_hex)` from decode_tx_data.py: removes `0x`
occurrences, then slices `[:8]`, `[8:72][-40:]` and `[72:136]`, parsing the
last slice with `int(_, 16)`. -/
def decode_transfer_data (data_hex : List Char) : DecodedTransfer :=
  let data := strip0xAll data_hex
  ⟨'0' :: 'x' :: data.take 8,
   transferSigText.data,
   '0' :: 'x' :: lastN 40 ((data.take 72).drop 8),
   hexToNat ((data.drop 72).take 64)⟩

/-! ### multisend_safe_tx.py -/

/-- One MultiSend sub-transaction, the `(to, value, data, operation)` tuple of
`create_multisend_data`; `to` is the 20-byte target, `data` the raw call
data bytes (the source hex-decodes its string argument). -/
structure MSTx where
  toAddr : List Nat
  value : Nat
  data : List Nat
  operation : Nat
  deriving DecidableEq

/-- `encode_multisend_transaction(to, value, data, operation)`:
`operation.to_bytes(1) ++ to ++ value.to_bytes(32) ++ len(data).to_bytes(32) ++ data`. -/
def encode_multisend_transaction (tx : MSTx) : Option (List Nat) :=
  match toBytesBE? tx.operation 1, toBytesBE? tx.value 32, toBytesBE? tx.data.length 32 with
  | some operation_bytes, some value_bytes, some data_length_bytes =>
    some (operation_bytes ++ tx.toAddr ++ value_bytes ++ data_length_bytes ++ tx.data)
  | _, _, _ => none

/-- The `encoded_txs += encode_multisend_transaction(...)` loop of
`create_multisend_data`. -/
def encodeEntries : List MSTx → Option (List Nat)
  | [] => some []
  | tx :: rest =>
    match encode_multisend_transaction tx, encodeEntries rest with
    | some e, some es => some (e ++ es)
    | _, _ => none

/-- The fixed `multiSend(bytes)` selector hex digits `8d80ff0a`. -/
def multisendSelChars : List Char := ['8', 'd', '8', '0', 'f', 'f', '0', 'a']

/-- `create_multisend_data(transactions)`: concatenates the per-entry
encodings in the given order, then returns
`0x8d80ff0a` ++ `hex(32)[2:].zfill(64)` ++ `hex(len)[2:].zfill(64)` ++ inner hex. -/
def create_multisend_data (transactions : List MSTx) : Option (List Char) :=
  match encodeEntries transactions with
  | none => none
  | some encoded_txs =>
    some ('0' :: 'x' :: (multisendSelChars
      ++ zfillL (natToHexL 32) 64
      ++ zfillL (natToHexL encoded_txs.length) 64
      ++ bytesToHexL encoded_txs))

/-! ### The eth-abi static encoder used by `w3.codec.encode` -/

inductive AbiType
  | bytes32
  | address
  | uint256
  | uint8
  deriving DecidableEq

inductive AbiVal
  | b32 (bs : List Nat)
  | addr (bs : List Nat)
  | num (n : Nat)
  deriving DecidableEq

/-- Static ABI encoding of one value as one 32-byte word, with the input
validation eth-abi performs (wrong byte length, overflow, or a value of the
wrong kind for the type is an encoding error). -/
def encAbi : AbiType → AbiVal → Option (List Nat)
  | .bytes32, .b32 bs => if bs.length = 32 then some bs else none
  | .address, .addr bs => if bs.length = 20 then some (List.replicate 12 0 ++ bs) else none
  | .uint256, .num n => toBytesBE? n 32
  | .uint8, .num n => if n < 256 then some (bePad 32 n) else none
  | _, _ => none

def encodeAll : List AbiType → List AbiVal → Option (List Nat)
  | [], [] => some []
  | t :: ts, v :: vs =>
    match encAbi t v, encodeAll ts vs with
    | some w, some rest => some (w ++ rest)
    | _, _ => none
  | _, _ => none

/-- `w3.codec.encode(types, values)`: eth-abi first rejects a length mismatch
between the type list and the value list, then encodes head-to-tail. -/
def codecEncode (ts : List AbiType) (vs : List AbiVal) : Option (List Nat) :=
  if ts.length = vs.length then encodeAll ts vs else none

/-! ### The Safe transaction record and the two hashers -/

/-- The Safe transaction dictionary (string-typed numeric fields already
converted by `int(...)` as the sources do at the call site). -/
structure SafeTx where
  toAddr : List Nat
  value : Nat
  data : List Nat
  operation : Nat
  safeTxGas : Nat
  baseGas : Nat
  gasPrice : Nat
  gasToken : List Nat
  refundReceiver : List Nat
  nonce : Nat
  deriving DecidableEq

def eip712DomainTypeText : String :=
  "EIP712Domain(string name,string version,uint256 chainId,address verifyingContract)"

def safeNameText : String := "Safe"

def safeVersionText : String := "1.3.0"

def safeTxTypeText : String :=
  "SafeTx(address to,uint256 value,bytes data,uint8 operation,uint256 safeTxGas,uint256 baseGas,uint256 gasPrice,address gasToken,address refundReceiver,uint256 nonce)"

def eip712DomainTypeBytes : List Nat := textToBytes eip712DomainTypeText

def safeNameBytes : List Nat := textToBytes safeNameText

def safeVersionBytes : List Nat := textToBytes safeVersionText

def safeTxTypeBytes : List Nat := textToBytes safeTxTypeText

/-- `calculate_tx_hash(safe_address, chain_id, tx_data)` from safe_tx_helper.py.
The same code appears as `calc_hash` in quick_safe_tx.py and
`calculate_safe_tx_hash` in multisend_safe_tx.py.  `keccak` is the abstract
hash; the source renders the final digest as a hex string, here kept as its
32 bytes. -/
def calculate_tx_hash (keccak : List Nat → List Nat) (safe_address : List Nat)
    (chain_id : Nat) (tx : SafeTx) : Option (List Nat) :=
  match codecEncode [.bytes32, .bytes32, .bytes32, .uint256, .address]
      [.b32 (keccak eip712DomainTypeBytes), .b32 (keccak safeNameBytes),
       .b32 (keccak safeVersionBytes), .num chain_id, .addr safe_address] with
  | none => none
  | some domEnc =>
    match codecEncode
        [.bytes32, .address, .uint256, .bytes32, .uint8,
         .uint256, .uint256, .uint256, .address, .address, .uint256]
        [.b32 (keccak safeTxTypeBytes), .addr tx.toAddr, .num tx.value, .b32 (keccak tx.data),
         .num tx.operation, .num tx.safeTxGas, .num tx.baseGas, .num tx.gasPrice,
         .addr tx.gasToken, .addr tx.refundReceiver, .num tx.nonce] with
    | none => none
    | some encoded_tx =>
      some (keccak ([0x19, 0x01] ++ keccak domEnc ++ keccak encoded_tx))

/-- `calculate_safe_tx_hash(safe_tx)` from safe_transaction_builder.py.  Its
domain-separator step passes FIVE values with a FOUR-element type list
(`[bytes32, bytes32, uint256, address]`) to `codec.encode` — exactly as the
source does at lines 85-97 — which eth-abi rejects as a length mismatch. -/
def stb_calculate_safe_tx_hash (keccak : List Nat → List Nat) (safe_address : List Nat)
    (chain_id : Nat) (tx : SafeTx) : Option (List Nat) :=
  match codecEncode [.bytes32, .bytes32, .uint256, .address]
      [.b32 (keccak eip712DomainTypeBytes), .b32 (keccak safeNameBytes),
       .b32 (keccak safeVersionBytes), .num chain_id, .addr safe_address] with
  | none => none
  | some domEnc =>
    match codecEncode
        [.bytes32, .address, .uint256, .bytes32, .uint8,
         .uint256, .uint256, .uint256, .address, .address, .uint256]
        [.b32 (keccak safeTxTypeBytes), .addr tx.toAddr, .num tx.value, .b32 (keccak tx.data),
         .num tx.operation, .num tx.safeTxGas, .num tx.baseGas, .num tx.gasPrice,
         .addr tx.gasToken, .addr tx.refundReceiver, .num tx.nonce] with
    | none => none
    | some encoded_tx =>
      some (keccak ([0x19, 0x01] ++ keccak domEnc ++ keccak encoded_tx))

/-! ### Definitions following the wording of the spec (for refinement claims) -/

/-- Modelled from the spec, section 4.4 stage 1: the domain separator as the
spec words it. -/
def spec_domain_separator (keccak : List Nat → List Nat) (chain_id : Nat)
    (verifying_contract : List Nat) : List Nat :=
  keccak (keccak eip712DomainTypeBytes ++ keccak safeNameBytes ++ keccak safeVersionBytes
    ++ bePad 32 chain_id ++ (List.replicate 12 0 ++ verifying_contract))

/-- Modelled from the spec, section 4.4 stage 2 / claim C2: the struct hash as
the spec words it — typehash word then the ten field words in declared order,
with the data hashed rather than embedded. -/
def spec_struct_hash (keccak : List Nat → List Nat) (tx : SafeTx) : List Nat :=
  keccak (keccak safeTxTypeBytes
    ++ (List.replicate 12 0 ++ tx.toAddr)
    ++ bePad 32 tx.value
    ++ keccak tx.data
    ++ bePad 32 tx.operation
    ++ bePad 32 tx.safeTxGas
    ++ bePad 32 tx.baseGas
    ++ bePad 32 tx.gasPrice
    ++ (List.replicate 12 0 ++ tx.gasToken)
    ++ (List.replicate 12 0 ++ tx.refundReceiver)
    ++ bePad 32 tx.nonce)

/-- Modelled from the spec, section 4.4 stage 3 / claim C2: the final digest
`hash(0x19 ++ 0x01 ++ domain_separator ++ struct_hash)`. -/
def spec_signing_digest (keccak : List Nat → List Nat) (chain_id : Nat)
    (verifying_contract : List Nat) (tx : SafeTx) : List Nat :=
  keccak ([0x19, 0x01] ++ spec_domain_separator keccak chain_id verifying_contract
    ++ spec_struct_hash keccak tx)

/-- Modelled from the spec / claim C6: the per-entry batch layout
`kind_byte(1) ++ target(20) ++ value(32) ++ data_length(32) ++ data`. -/
def msEntryBytes (tx : MSTx) : List Nat :=
  bePad 1 tx.operation ++ tx.toAddr ++ bePad 32 tx.value ++ bePad 32 tx.data.length ++ tx.data

/-- The 62-character amount word the spec scenario of claim C9 asserts
(quoted verbatim from the spec; note it is not 64 characters long). -/
def spec_c9_amount_word : List Char :=
  List.replicate 53 '0' ++ ['9', 'e', 'c', 'b', '6', '6', '2', 'd', '0']

/-! ### Concrete sample values used by witnesses and counterexamples -/

/-- A stand-in hash function used only to instantiate witnesses: any
function returning 32 bytes satisfies the abstract-hash hypotheses. -/
def kArb (bs : List Nat) : List Nat := List.replicate 32 (bs.length % 256)

/-- Sample 20-byte recipient of repeating byte `0x12`. -/
def rcpt12 : List Nat := List.replicate 20 18

/-- Sample owner address string `0x` ++ 40 times `1`. -/
def addrOnes : List Char := '0' :: 'x' :: List.replicate 40 '1'

/-- Owner address string starting with byte `0x01`. -/
def addr01 : List Char := '0' :: 'x' :: '0' :: '1' :: List.replicate 38 'a'

/-- Owner address string starting with byte `0x02`. -/
def addr02 : List Char := '0' :: 'x' :: '0' :: '2' :: List.replicate 38 'a'

/-- Sample transaction record for witnesses. -/
def txW : SafeTx :=
  ⟨List.replicate 20 1, 5, [1, 2, 3], 0, 0, 0, 0,
   List.replicate 20 0, List.replicate 20 0, 3⟩

/-- Sample MultiSend entry: zero-value Call with empty data. -/
def msTx0 : MSTx := ⟨List.replicate 20 1, 0, [], 0⟩

/-- A well-formed textual owner address: `0x` followed by 40 hex characters. -/
def wfAddrB (a : List Char) : Bool :=
  a.length == 42 && decide (a.take 2 = ['0', 'x']) && (a.drop 2).all isHexChar

/-! ### Lemmas about characters and digits -/

theorem hexCharVal_hexDigitChar : ∀ d, d < 16 → hexCharVal (hexDigitChar d) = d := by decide

theorem hexDigitChar_mem_lower : ∀ d, d < 16 → hexDigitChar d ∈ lowerHexChars := by decide

theorem mem_lower_ne_x : ∀ c ∈ lowerHexChars, c ≠ 'x' := by decide

theorem mem_hexAll_ne_x : ∀ c ∈ hexCharsAll, c ≠ 'x' := by decide

theorem toLower_mem_lower : ∀ c ∈ hexCharsAll, Char.toLower c ∈ lowerHexChars := by decide

theorem toLower_fix_lower : ∀ c ∈ lowerHexChars, Char.toLower c = c := by decide

theorem hexCharVal_lt_16 : ∀ c ∈ lowerHexChars, hexCharVal c < 16 := by decide

theorem hexCharVal_mono :
    ∀ c ∈ lowerHexChars, ∀ d ∈ lowerHexChars, c.toNat < d.toNat →
      hexCharVal c < hexCharVal d := by decide

theorem digitsAuxBE_length_le {b : Nat} (hb : 1 < b) :
    ∀ fuel n k, n < b ^ k → (digitsAuxBE b fuel n).length ≤ k := by
  intro fuel
  induction fuel with
  | zero => intro n k _; simp [digitsAuxBE]
  | succ fuel ih =>
    intro n k hn
    by_cases h0 : n = 0
    · simp [digitsAuxBE, h0]
    · cases k with
      | zero => rw [pow_zero] at hn; omega
      | succ j =>
        have hdiv : n / b < b ^ j := by
          rw [Nat.div_lt_iff_lt_mul (by omega : 0 < b)]
          calc n < b ^ (j + 1) := hn
            _ = b ^ j * b := by rw [pow_succ]
        have := ih (n / b) j hdiv
        simp [digitsAuxBE, h0]
        omega

theorem digitsAuxBE_length_ge {b : Nat} (hb : 1 < b) :
    ∀ fuel n k, n < b ^ fuel → b ^ k ≤ n → k + 1 ≤ (digitsAuxBE b fuel n).length := by
  intro fuel
  induction fuel with
  | zero =>
    intro n k hfuel hk
    rw [pow_zero] at hfuel
    have : 0 < b ^ k := pow_pos (by omega) k
    omega
  | succ fuel ih =>
    intro n k hfuel hk
    have hbk : 0 < b ^ k := pow_pos (by omega) k
    have h0 : n ≠ 0 := by omega
    cases k with
    | zero =>
      simp only [digitsAuxBE, if_neg h0, List.length_append, List.length_cons,
        List.length_nil]
      omega
    | succ j =>
      have h1 : b ^ j ≤ n / b := by
        rw [Nat.le_div_iff_mul_le (by omega : 0 < b)]
        calc b ^ j * b = b ^ (j + 1) := by rw [pow_succ]
          _ ≤ n := hk
      have h2 : n / b < b ^ fuel := by
        rw [Nat.div_lt_iff_lt_mul (by omega : 0 < b)]
        calc n < b ^ (fuel + 1) := hfuel
          _ = b ^ fuel * b := by rw [pow_succ]
      have := ih (n / b) j h2 h1
      simp only [digitsAuxBE, if_neg h0, List.length_append, List.length_cons,
        List.length_nil]
      omega

theorem digitsAuxBE_mem_lt {b : Nat} (hb : 0 < b) :
    ∀ fuel n d, d ∈ digitsAuxBE b fuel n → d < b := by
  intro fuel
  induction fuel with
  | zero => intro n d hd; simp [digitsAuxBE] at hd
  | succ fuel ih =>
    intro n d hd
    by_cases h0 : n = 0
    · simp [digitsAuxBE, h0] at hd
    · simp only [digitsAuxBE, if_neg h0] at hd
      rcases List.mem_append.mp hd with h | h
      · exact ih (n / b) d h
      · simp at h
        subst h
        exact Nat.mod_lt _ hb

theorem digitsAuxBE_parse {b : Nat} (hb : 1 < b) :
    ∀ fuel n a, n < b ^ fuel →
      (digitsAuxBE b fuel n).foldl (fun acc d => b * acc + d) a
        = a * b ^ (digitsAuxBE b fuel n).length + n := by
  intro fuel
  induction fuel with
  | zero =>
    intro n a hn
    rw [pow_zero] at hn
    have h0 : n = 0 := by omega
    subst h0
    simp [digitsAuxBE]
  | succ fuel ih =>
    intro n a hn
    by_cases h0 : n = 0
    · subst h0; simp [digitsAuxBE]
    · have h2 : n / b < b ^ fuel := by
        rw [Nat.div_lt_iff_lt_mul (by omega : 0 < b)]
        calc n < b ^ (fuel + 1) := hn
          _ = b ^ fuel * b := by rw [pow_succ]
      simp only [digitsAuxBE, if_neg h0]
      rw [List.foldl_append]
      simp only [List.foldl_cons, List.foldl_nil, List.length_append,
        List.length_cons, List.length_nil]
      rw [ih (n / b) a h2]
      calc b * (a * b ^ (digitsAuxBE b fuel (n / b)).length + n / b) + n % b
          = a * (b ^ (digitsAuxBE b fuel (n / b)).length * b)
              + (b * (n / b) + n % b) := by ring
        _ = a * b ^ ((digitsAuxBE b fuel (n / b)).length + 1) + n := by
              rw [← pow_succ, Nat.div_add_mod]

/-! ### Lemmas about hex rendering and parsing -/

theorem foldl_congr_mem {α β : Type} (f g : β → α → β) :
    ∀ (l : List α) (a : β), (∀ x ∈ l, ∀ acc, f acc x = g acc x) →
      l.foldl f a = l.foldl g a := by
  intro l
  induction l with
  | nil => intro a _; rfl
  | cons x xs ih =>
    intro a h
    simp only [List.foldl_cons]
    rw [h x (by simp)]
    exact ih _ (fun y hy acc => h y (by simp [hy]) acc)

theorem hexToNat_natToHexL (n : Nat) : hexToNat (natToHexL n) = n := by
  by_cases h0 : n = 0
  · subst h0; decide
  · have hfuel : n < 16 ^ n := Nat.lt_pow_self (by norm_num) n
    unfold natToHexL hexToNat
    rw [if_neg h0, List.foldl_map]
    rw [foldl_congr_mem _ (fun acc d => 16 * acc + d) _ 0 (fun d hd acc => by
      simp only [hexStep]
      rw [hexCharVal_hexDigitChar d (digitsAuxBE_mem_lt (by norm_num) n n d hd)])]
    rw [digitsAuxBE_parse (by norm_num) n n 0 hfuel]
    simp

theorem natToHexL_length_le {n k : Nat} (hk : 0 < k) (hn : n < 16 ^ k) :
    (natToHexL n).length ≤ k := by
  by_cases h0 : n = 0
  · subst h0; simpa [natToHexL] using hk
  · unfold natToHexL
    rw [if_neg h0, List.length_map]
    exact digitsAuxBE_length_le (by norm_num) n n k hn

theorem natToHexL_length_ge {n k : Nat} (hn : 16 ^ k ≤ n) :
    k + 1 ≤ (natToHexL n).length := by
  have hpos : 0 < n := lt_of_lt_of_le (pow_pos (by norm_num) k) hn
  unfold natToHexL
  rw [if_neg (by omega), List.length_map]
  exact digitsAuxBE_length_ge (by norm_num) n n k (Nat.lt_pow_self (by norm_num) n) hn

theorem natToHexL_mem {n : Nat} : ∀ c ∈ natToHexL n, c ∈ lowerHexChars := by
  intro c hc
  by_cases h0 : n = 0
  · subst h0
    simp [natToHexL] at hc
    subst hc
    decide
  · unfold natToHexL at hc
    rw [if_neg h0] at hc
    rcases List.mem_map.mp hc with ⟨d, hd, rfl⟩
    exact hexDigitChar_mem_lower d (digitsAuxBE_mem_lt (by norm_num) n n d hd)

theorem zfillL_length_of_le {s : List Char} {w : Nat} (h : s.length ≤ w) :
    (zfillL s w).length = w := by
  simp only [zfillL, List.length_append, List.length_replicate]
  omega

theorem zfillL_of_ge {s : List Char} {w : Nat} (h : w ≤ s.length) :
    zfillL s w = s := by
  simp [zfillL, Nat.sub_eq_zero_of_le h]

theorem zfillL_mem {s : List Char} {w : Nat} (h : ∀ c ∈ s, c ∈ lowerHexChars) :
    ∀ c ∈ zfillL s w, c ∈ lowerHexChars := by
  intro c hc
  rcases List.mem_append.mp hc with h1 | h1
  · rw [List.eq_of_mem_replicate h1]
    decide
  · exact h c h1

theorem foldl_hexStep_zeros : ∀ k, (List.replicate k '0').foldl hexStep 0 = 0 := by
  intro k
  induction k with
  | zero => rfl
  | succ k ih =>
    rw [List.replicate_succ, List.foldl_cons]
    have h00 : hexStep 0 '0' = 0 := by decide
    rw [h00]
    exact ih

theorem hexToNat_zeros_append (k : Nat) (l : List Char) :
    hexToNat (List.replicate k '0' ++ l) = hexToNat l := by
  unfold hexToNat
  rw [List.foldl_append, foldl_hexStep_zeros]

theorem hexToNat_zfill (s : List Char) (w : Nat) : hexToNat (zfillL s w) = hexToNat s :=
  hexToNat_zeros_append _ _

theorem foldl_hexStep_acc : ∀ (l : List Char) (a : Nat),
    l.foldl hexStep a = a * 16 ^ l.length + l.foldl hexStep 0 := by
  intro l
  induction l with
  | nil => intro a; simp
  | cons c cs ih =>
    intro a
    simp only [List.foldl_cons, List.length_cons]
    rw [ih (hexStep a c), ih (hexStep 0 c)]
    simp only [hexStep]
    rw [pow_succ]
    ring

theorem hexToNat_cons (c : Char) (l : List Char) :
    hexToNat (c :: l) = hexCharVal c * 16 ^ l.length + hexToNat l := by
  unfold hexToNat
  rw [List.foldl_cons, foldl_hexStep_acc]
  simp [hexStep]

theorem hexToNat_lt (l : List Char) (h : ∀ c ∈ l, c ∈ lowerHexChars) :
    hexToNat l < 16 ^ l.length := by
  induction l with
  | nil => simp [hexToNat]
  | cons c cs ih =>
    rw [hexToNat_cons, List.length_cons, pow_succ]
    have h1 : hexCharVal c < 16 := hexCharVal_lt_16 c (h c (by simp))
    have h2 : hexToNat cs < 16 ^ cs.length := ih (fun x hx => h x (by simp [hx]))
    calc hexCharVal c * 16 ^ cs.length + hexToNat cs
        < hexCharVal c * 16 ^ cs.length + 16 ^ cs.length :=
          Nat.add_lt_add_left h2 _
      _ = (hexCharVal c + 1) * 16 ^ cs.length := by ring
      _ ≤ 16 * 16 ^ cs.length := Nat.mul_le_mul_right _ (by omega)
      _ = 16 ^ cs.length * 16 := by ring

/-! ### Lemmas about the lexicographic order -/

theorem lexLe_total : ∀ a b, lexLe a b = true ∨ lexLe b a = true := by
  intro a
  induction a with
  | nil => intro b; left; rfl
  | cons x xs ih =>
    intro b
    cases b with
    | nil => right; rfl
    | cons y ys =>
      by_cases h1 : x.toNat < y.toNat
      · left; simp [lexLe, h1]
      · by_cases h2 : y.toNat < x.toNat
        · right; simp [lexLe, h2]
        · rcases ih ys with h3 | h3
          · left; simp [lexLe, h1, h2, h3]
          · right; simp [lexLe, h1, h2, h3]

theorem lexLe_trans : ∀ a b c, lexLe a b = true → lexLe b c = true → lexLe a c = true := by
  intro a
  induction a with
  | nil => intro b c _ _; rfl
  | cons x xs ih =>
    intro b c hab hbc
    cases b with
    | nil => simp [lexLe] at hab
    | cons y ys =>
      cases c with
      | nil => simp [lexLe] at hbc
      | cons z zs =>
        simp only [lexLe] at hab hbc ⊢
        by_cases h1 : x.toNat < y.toNat
        · by_cases h2 : y.toNat < z.toNat
          · rw [if_pos (by omega : x.toNat < z.toNat)]
          · by_cases h3 : z.toNat < y.toNat
            · rw [if_neg h2, if_pos h3] at hbc; exact absurd hbc (by simp)
            · rw [if_pos (by omega : x.toNat < z.toNat)]
        · by_cases h4 : y.toNat < x.toNat
          · rw [if_neg h1, if_pos h4] at hab; exact absurd hab (by simp)
          · rw [if_neg h1, if_neg h4] at hab
            by_cases h2 : y.toNat < z.toNat
            · rw [if_pos (by omega : x.toNat < z.toNat)]
            · by_cases h3 : z.toNat < y.toNat
              · rw [if_neg h2, if_pos h3] at hbc; exact absurd hbc (by simp)
              · rw [if_neg h2, if_neg h3] at hbc
                rw [if_neg (by omega : ¬ x.toNat < z.toNat),
                  if_neg (by omega : ¬ z.toNat < x.toNat)]
                exact ih ys zs hab hbc

theorem lexLe_antisymm : ∀ a b, lexLe a b = true → lexLe b a = true → a = b := by
  intro a
  induction a with
  | nil =>
    intro b hab hba
    cases b with
    | nil => rfl
    | cons y ys => simp [lexLe] at hba
  | cons x xs ih =>
    intro b hab hba
    cases b with
    | nil => simp [lexLe] at hab
    | cons y ys =>
      simp only [lexLe] at hab hba
      by_cases h1 : x.toNat < y.toNat
      · rw [if_neg (by omega : ¬ y.toNat < x.toNat), if_pos h1] at hba
        exact absurd hba (by simp)
      · by_cases h2 : y.toNat < x.toNat
        · rw [if_neg h1, if_pos h2] at hab
          exact absurd hab (by simp)
        · rw [if_neg h1, if_neg h2] at hab
          rw [if_neg h2, if_neg h1] at hba
          have hxy : x = y := by
            have htn : x.toNat = y.toNat := by omega
            calc x = Char.ofNat x.toNat := (Char.ofNat_toNat x).symm
              _ = Char.ofNat y.toNat := by rw [htn]
              _ = y := Char.ofNat_toNat y
          rw [hxy, ih ys hab hba]

instance : IsTotal (List Char) addrLe := ⟨lexLe_total⟩

instance : IsTrans (List Char) addrLe := ⟨fun a b c => lexLe_trans a b c⟩

instance : IsAntisymm (List Char) addrLe := ⟨fun a b => lexLe_antisymm a b⟩

theorem lexLe_hexToNat_le : ∀ (a b : List Char), a.length = b.length →
    (∀ c ∈ a, c ∈ lowerHexChars) → (∀ c ∈ b, c ∈ lowerHexChars) →
    lexLe a b = true → hexToNat a ≤ hexToNat b := by
  intro a
  induction a with
  | nil =>
    intro b hlen _ _ _
    have hb : b = [] := by cases b <;> simp_all
    subst hb
    exact le_refl _
  | cons x xs ih =>
    intro b hlen ha hb hle
    cases b with
    | nil => simp at hlen
    | cons y ys =>
      simp only [List.length_cons] at hlen
      have hxl : x ∈ lowerHexChars := ha x (by simp)
      have hyl : y ∈ lowerHexChars := hb y (by simp)
      have hxs : ∀ c ∈ xs, c ∈ lowerHexChars := fun c hc => ha c (by simp [hc])
      have hys : ∀ c ∈ ys, c ∈ lowerHexChars := fun c hc => hb c (by simp [hc])
      have hL : xs.length = ys.length := by omega
      rw [hexToNat_cons, hexToNat_cons, hL]
      simp only [lexLe] at hle
      by_cases h1 : x.toNat < y.toNat
      · have hv : hexCharVal x < hexCharVal y := hexCharVal_mono x hxl y hyl h1
        have hra : hexToNat xs ≤ 16 ^ ys.length := by
          rw [← hL]
          exact le_of_lt (hexToNat_lt xs hxs)
        calc hexCharVal x * 16 ^ ys.length + hexToNat xs
            ≤ hexCharVal x * 16 ^ ys.length + 16 ^ ys.length :=
              Nat.add_le_add_left hra _
          _ = (hexCharVal x + 1) * 16 ^ ys.length := by ring
          _ ≤ hexCharVal y * 16 ^ ys.length := Nat.mul_le_mul_right _ (by omega)
          _ ≤ hexCharVal y * 16 ^ ys.length + hexToNat ys := Nat.le_add_right _ _
      · rw [if_neg h1] at hle
        by_cases h2 : y.toNat < x.toNat
        · rw [if_pos h2] at hle
          exact absurd hle (by simp)
        · rw [if_neg h2] at hle
          have hvv : hexCharVal x = hexCharVal y := by
            unfold hexCharVal
            rw [(by omega : x.toNat = y.toNat)]
          rw [hvv]
          exact Nat.add_le_add_left (ih ys hL hxs hys hle) _

/-! ### Miscellaneous list lemmas -/

theorem strip0xAll_eq_self : ∀ (l : List Char), (∀ c ∈ l, c ≠ 'x') → strip0xAll l = l := by
  intro l
  induction l with
  | nil => intro _; rfl
  | cons c cs ih =>
    intro h
    cases cs with
    | nil => rfl
    | cons c2 rest =>
      have h2 : ¬ (c = '0' ∧ c2 = 'x') := by
        rintro ⟨_, hx⟩
        exact h c2 (by simp) hx
      simp only [strip0xAll, if_neg h2]
      rw [ih (fun d hd => h d (by simp [hd]))]

theorem lastN_append {α : Type} {n : Nat} {l1 l2 : List α} (h : l2.length = n) :
    lastN n (l1 ++ l2) = l2 := by
  unfold lastN
  rw [List.length_append, h, (by omega : l1.length + n - n = l1.length)]
  exact List.drop_left l1 l2

theorem flatten_length_const {α β : Type} (f : α → List β) (c : Nat) :
    ∀ (L : List α), (∀ x ∈ L, (f x).length = c) →
      ((L.map f).flatten).length = c * L.length := by
  intro L
  induction L with
  | nil => intro _; simp
  | cons x xs ih =>
    intro h
    simp only [List.map_cons, List.flatten_cons, List.length_append, List.length_cons]
    rw [h x (by simp), ih (fun y hy => h y (by simp [hy]))]
    ring

theorem beBytes_length_le {n k : Nat} (hn : n < 256 ^ k) : (beBytes n).length ≤ k :=
  digitsAuxBE_length_le (by norm_num) n n k hn

theorem bePad_length {len n : Nat} (hn : n < 256 ^ len) : (bePad len n).length = len := by
  unfold bePad
  rw [List.length_append, List.length_replicate]
  have := beBytes_length_le hn
  omega

theorem bytesToHexL_length (bs : List Nat) : (bytesToHexL bs).length = 2 * bs.length :=
  flatten_length_const byteToHexL 2 bs (fun _ _ => rfl)

theorem bytesToHexL_mem {bs : List Nat} (h : ∀ b ∈ bs, b < 256) :
    ∀ c ∈ bytesToHexL bs, c ∈ lowerHexChars := by
  intro c hc
  unfold bytesToHexL at hc
  rcases List.mem_flatten.mp hc with ⟨l, hl, hcl⟩
  rcases List.mem_map.mp hl with ⟨b, hbm, rfl⟩
  have hblt : b < 256 := h b hbm
  unfold byteToHexL at hcl
  simp only [List.mem_cons, List.mem_singleton] at hcl
  rcases hcl with rfl | hcl
  · exact hexDigitChar_mem_lower _ (by omega)
  · rcases hcl with rfl | hfalse
    · exact hexDigitChar_mem_lower _ (by omega)
    · simp at hfalse

/-! ### Lemmas about well-formed textual addresses and approval entries -/

theorem wfAddrB_elim {a : List Char} (h : wfAddrB a = true) :
    a = '0' :: 'x' :: a.drop 2 ∧ (a.drop 2).length = 40
      ∧ ∀ c ∈ a.drop 2, c ∈ hexCharsAll := by
  unfold wfAddrB at h
  simp only [Bool.and_eq_true, beq_iff_eq, decide_eq_true_eq, List.all_eq_true] at h
  obtain ⟨⟨hlen, htake⟩, hall⟩ := h
  refine ⟨?_, ?_, ?_⟩
  · conv_lhs => rw [← List.take_append_drop 2 a]
    rw [htake]
    rfl
  · rw [List.length_drop, hlen]
  · intro c hc
    have hx := hall c hc
    unfold isHexChar at hx
    exact of_decide_eq_true hx

theorem lower_mem_all : ∀ c ∈ lowerHexChars, c ∈ hexCharsAll := by decide

theorem wfAddrB_toLower {a : List Char} (hw : wfAddrB a = true) :
    wfAddrB (toLowerL a) = true := by
  obtain ⟨hshape, hlen, hmem⟩ := wfAddrB_elim hw
  have hlow : toLowerL a = '0' :: 'x' :: toLowerL (a.drop 2) := by
    conv_lhs => rw [hshape]
    simp only [toLowerL, List.map_cons]
    rw [(by decide : Char.toLower '0' = '0'), (by decide : Char.toLower 'x' = 'x')]
  rw [hlow]
  unfold wfAddrB
  simp only [Bool.and_eq_true, beq_iff_eq, decide_eq_true_eq, List.all_eq_true]
  refine ⟨⟨?_, rfl⟩, ?_⟩
  · simp only [List.length_cons, toLowerL, List.length_map]
    omega
  · intro c hc
    simp only [List.drop_succ_cons, List.drop_zero] at hc
    rcases List.mem_map.mp hc with ⟨d, hd, rfl⟩
    have : Char.toLower d ∈ lowerHexChars := toLower_mem_lower d (hmem d hd)
    unfold isHexChar
    exact decide_eq_true (lower_mem_all _ this)

theorem strip0xAll_cons0x (l : List Char) :
    strip0xAll ('0' :: 'x' :: l) = strip0xAll l := by
  simp [strip0xAll]

theorem strip0x_of_wf {a : List Char} (hw : wfAddrB a = true) :
    strip0xAll a = a.drop 2 := by
  obtain ⟨hshape, _, hmem⟩ := wfAddrB_elim hw
  conv_lhs => rw [hshape]
  rw [strip0xAll_cons0x]
  exact strip0xAll_eq_self _ (fun c hc => mem_hexAll_ne_x c (hmem c hc))

theorem approved_sig_layout {a : List Char} (hw : wfAddrB a = true) :
    create_approved_hash_signature a
      = List.replicate 24 '0' ++ toLowerL (a.drop 2)
          ++ List.replicate 64 '0' ++ ['0', '1'] := by
  unfold create_approved_hash_signature
  rw [strip0x_of_wf hw]

theorem approved_sig_length {a : List Char} (hw : wfAddrB a = true) :
    (create_approved_hash_signature a).length = 130 := by
  obtain ⟨_, hlen, _⟩ := wfAddrB_elim hw
  rw [approved_sig_layout hw]
  simp only [List.length_append, List.length_replicate, toLowerL, List.length_map, hlen]
  rfl

theorem lexLe_cons_same (c : Char) (a b : List Char) :
    lexLe (c :: a) (c :: b) = lexLe a b := by
  simp [lexLe]

theorem sorted_mem_wf {l : List (List Char)} (hwf : ∀ a ∈ l, wfAddrB a = true) :
    ∀ s ∈ List.insertionSort addrLe (l.map toLowerL),
      wfAddrB s = true ∧ ∀ c ∈ s.drop 2, c ∈ lowerHexChars := by
  intro s hs
  have hm : s ∈ l.map toLowerL := (List.perm_insertionSort addrLe _).mem_iff.mp hs
  rcases List.mem_map.mp hm with ⟨a, ha, rfl⟩
  have hw := hwf a ha
  obtain ⟨hshape, hlen, hmem⟩ := wfAddrB_elim hw
  refine ⟨wfAddrB_toLower hw, ?_⟩
  intro c hc
  have hdm : (toLowerL a).drop 2 = toLowerL (a.drop 2) := by
    conv_lhs => rw [hshape]
    rfl
  rw [hdm] at hc
  rcases List.mem_map.mp hc with ⟨d, hd, rfl⟩
  exact toLower_mem_lower d (hmem d hd)

/-! ### Lemmas about the MultiSend batch encoder -/

theorem msEntry_encode {tx : MSTx} (hop : tx.operation < 256) (hv : tx.value < 2 ^ 256)
    (hd : tx.data.length < 2 ^ 256) :
    encode_multisend_transaction tx = some (msEntryBytes tx) := by
  have h256 : (256 : Nat) ^ 32 = 2 ^ 256 := by norm_num
  have h1 : toBytesBE? tx.operation 1 = some (bePad 1 tx.operation) := by
    simp [toBytesBE?]
    omega
  have h2 : toBytesBE? tx.value 32 = some (bePad 32 tx.value) := by
    simp only [toBytesBE?, h256]
    rw [if_pos hv]
  have h3 : toBytesBE? tx.data.length 32 = some (bePad 32 tx.data.length) := by
    simp only [toBytesBE?, h256]
    rw [if_pos hd]
  unfold encode_multisend_transaction msEntryBytes
  rw [h1, h2, h3]

theorem encodeEntries_eq {txs : List MSTx}
    (h : ∀ tx ∈ txs, encode_multisend_transaction tx = some (msEntryBytes tx)) :
    encodeEntries txs = some ((txs.map msEntryBytes).flatten) := by
  induction txs with
  | nil => simp [encodeEntries]
  | cons tx rest ih =>
    simp only [encodeEntries, h tx (by simp), ih (fun t ht => h t (by simp [ht])),
      List.map_cons, List.flatten_cons]

theorem msEntry_length {tx : MSTx} (hto : tx.toAddr.length = 20) (hop : tx.operation < 256)
    (hv : tx.value < 2 ^ 256) (hd : tx.data.length < 2 ^ 256) :
    (msEntryBytes tx).length = 85 + tx.data.length := by
  have h256 : (256 : Nat) ^ 32 = 2 ^ 256 := by norm_num
  have l1 : (bePad 1 tx.operation).length = 1 := bePad_length (by omega)
  have l2 : (bePad 32 tx.value).length = 32 := bePad_length (by omega)
  have l3 : (bePad 32 tx.data.length).length = 32 := bePad_length (by omega)
  unfold msEntryBytes
  simp only [List.length_append, l1, l2, l3, hto]

/-! ### Claim theorems -/

/-- Claim C1 (code bug): the hasher variant `calculate_safe_tx_hash` of
safe_transaction_builder.py does NOT succeed on well-formed input — it fails
on every input, for every chain id, Safe address and transaction record,
because its domain-separator step hands `codec.encode` five values with a
four-element type list, which the encoder rejects as an arity mismatch
before encoding anything.  (The other variant, `calculate_tx_hash` of
safe_tx_helper.py, does succeed on every well-formed record — see the claim
C2 theorem.) -/
theorem C1_builder_hash_always_fails (keccak : List Nat → List Nat)
    (safe_address : List Nat) (chain_id : Nat) (tx : SafeTx) :
    stb_calculate_safe_tx_hash keccak safe_address chain_id tx = none := by
  simp [stb_calculate_safe_tx_hash, codecEncode]

/-- Claim C4: for a well-formed `0x`-prefixed 40-hex-character owner address,
the approval entry is the 130 hex characters (= 65 bytes) laid out as
24 zero chars (12 zero bytes) ++ the 40 address chars lower-cased (the 20
address bytes) ++ 64 zero chars (32 zero bytes) ++ `01` (the byte 0x01). -/
theorem C4_approval_entry (owner : List Char) (hw : wfAddrB owner = true) :
    create_approved_hash_signature owner
        = List.replicate 24 '0' ++ toLowerL (owner.drop 2)
            ++ List.replicate 64 '0' ++ ['0', '1']
      ∧ (create_approved_hash_signature owner).length = 130 :=
  ⟨approved_sig_layout hw, approved_sig_length hw⟩

/-- Witness for the claim C4 theorem at the concrete owner `0x` ++ 40 ones. -/
theorem C4_approval_entry_witness :
    create_approved_hash_signature addrOnes
        = List.replicate 24 '0' ++ toLowerL (addrOnes.drop 2)
            ++ List.replicate 64 '0' ++ ['0', '1']
      ∧ (create_approved_hash_signature addrOnes).length = 130 :=
  C4_approval_entry addrOnes (by decide)

/-- Claim C5: for a 20-byte recipient and an amount below 2^256,
`encode_transfer_data` returns the selector `a9059cbb` followed by the
recipient left-padded to 32 bytes (24 zero chars then its 40 hex chars)
followed by the amount left-padded to 32 bytes; the output is 136 hex
characters behind the `0x` prefix (138 in all), and parsing the final
64-character word as big-endian hex recovers the amount exactly. -/
theorem C5_encode_transfer (recipient : List Nat) (amount : Nat)
    (hr : recipient.length = 20) (ha : amount < 2 ^ 256) :
    encode_transfer_data recipient amount
        = '0' :: 'x' :: (transferSelChars
            ++ (List.replicate 24 '0' ++ bytesToHexL recipient)
            ++ zfillL (natToHexL amount) 64)
      ∧ (encode_transfer_data recipient amount).length = 138
      ∧ hexToNat (lastN 64 (encode_transfer_data recipient amount)) = amount := by
  have h40 : (bytesToHexL recipient).length = 40 := by
    rw [bytesToHexL_length, hr]
  have h16 : amount < 16 ^ 64 := by
    have : (16 : Nat) ^ 64 = 2 ^ 256 := by norm_num
    omega
  have hzr : zfillL (bytesToHexL recipient) 64
      = List.replicate 24 '0' ++ bytesToHexL recipient := by
    unfold zfillL
    rw [h40]
  have hclen : (zfillL (natToHexL amount) 64).length = 64 :=
    zfillL_length_of_le (natToHexL_length_le (by norm_num) h16)
  refine ⟨?_, ?_, ?_⟩
  · unfold encode_transfer_data
    rw [hzr]
  · unfold encode_transfer_data
    simp only [List.length_cons, List.length_append, hclen,
      zfillL_length_of_le (by omega : (bytesToHexL recipient).length ≤ 64), h40]
    rfl
  · unfold encode_transfer_data
    have hsplit : '0' :: 'x' :: (transferSelChars
          ++ zfillL (bytesToHexL recipient) 64
          ++ zfillL (natToHexL amount) 64)
        = ('0' :: 'x' :: (transferSelChars ++ zfillL (bytesToHexL recipient) 64))
          ++ zfillL (natToHexL amount) 64 := by
      simp [List.append_assoc]
    rw [hsplit, lastN_append hclen, hexToNat_zfill, hexToNat_natToHexL]

/-- Witness for the claim C5 theorem at a concrete recipient and amount. -/
theorem C5_encode_transfer_witness :
    encode_transfer_data rcpt12 777
        = '0' :: 'x' :: (transferSelChars
            ++ (List.replicate 24 '0' ++ bytesToHexL rcpt12)
            ++ zfillL (natToHexL 777) 64)
      ∧ (encode_transfer_data rcpt12 777).length = 138
      ∧ hexToNat (lastN 64 (encode_transfer_data rcpt12 777)) = 777 :=
  C5_encode_transfer rcpt12 777 (by decide) (by norm_num)

/-- Claim C7 counterexample: at amount `2 ^ 256` (the smallest overflowing
amount) `encode_transfer_data` does NOT fail — it returns a 139-character
string whose amount field is the 65 hex characters `1` ++ 64 zeros, so the
claim that it rejects every amount `≥ 2 ^ 256` with `AmountOverflow` is
false: the source contains no overflow check at all. -/
theorem C7_counterexample :
    (encode_transfer_data rcpt12 (2 ^ 256)).length = 139
      ∧ lastN 65 (encode_transfer_data rcpt12 (2 ^ 256))
        = '1' :: List.replicate 64 '0' := by
  constructor
  · decide
  · decide

/-- Claim C7 (amended): `encode_transfer_data` performs no overflow or sign
check and always returns a string; for any amount `≥ 2 ^ 256` the amount
field is `hex(amount)` un-truncated (at least 65 characters, since `zfill`
never shortens), so the output exceeds the normal 138 characters instead of
failing with `AmountOverflow`. -/
theorem C7_no_overflow_check (recipient : List Nat) (amount : Nat)
    (hr : recipient.length = 20) (ha : 2 ^ 256 ≤ amount) :
    (encode_transfer_data recipient amount).length = 74 + (natToHexL amount).length
      ∧ 139 ≤ (encode_transfer_data recipient amount).length := by
  have h16 : (16 : Nat) ^ 64 ≤ amount := by
    have : (16 : Nat) ^ 64 = 2 ^ 256 := by norm_num
    omega
  have hge : 65 ≤ (natToHexL amount).length := natToHexL_length_ge h16
  have h40 : (bytesToHexL recipient).length = 40 := by
    rw [bytesToHexL_length, hr]
  have hza : zfillL (natToHexL amount) 64 = natToHexL amount :=
    zfillL_of_ge (by omega)
  have hmain : (encode_transfer_data recipient amount).length
      = 74 + (natToHexL amount).length := by
    unfold encode_transfer_data
    rw [hza]
    simp only [List.length_cons, List.length_append,
      zfillL_length_of_le (by omega : (bytesToHexL recipient).length ≤ 64)]
    have h8 : transferSelChars.length = 8 := by decide
    omega
  exact ⟨hmain, by omega⟩

/-- Witness for the claim C7 amended theorem at amount `2 ^ 257`. -/
theorem C7_no_overflow_check_witness :
    (encode_transfer_data rcpt12 (2 ^ 257)).length = 74 + (natToHexL (2 ^ 257)).length
      ∧ 139 ≤ (encode_transfer_data rcpt12 (2 ^ 257)).length :=
  C7_no_overflow_check rcpt12 (2 ^ 257) (by decide) (by norm_num)

/-- Claim C8 counterexample: neither operation rejects empty input.
`create_multisend_data` applied to zero entries returns the wrapper with a
zero length word (not a failure), and `create_multiple_approved_signatures`
applied to zero owners returns the bare `0x` prefix — there is no
`EmptyBatch` or `EmptyOwnerSet` error anywhere in the source. -/
theorem C8_counterexample :
    create_multisend_data [] ≠ none
      ∧ create_multiple_approved_signatures [] = ['0', 'x'] := by
  constructor
  · decide
  · decide

/-- Claim C8 (amended): on empty input `create_multisend_data` returns the
degenerate wrapper `0x8d80ff0a` ++ offset word 0x20 ++ zero length word ++
empty inner payload, and `create_multiple_approved_signatures` returns the
bare `0x` prefix; both return normally instead of failing. -/
theorem C8_empty_outputs :
    create_multisend_data []
        = some ('0' :: 'x' :: (multisendSelChars
            ++ (List.replicate 62 '0' ++ ['2', '0'])
            ++ List.replicate 64 '0'))
      ∧ create_multiple_approved_signatures [] = ['0', 'x'] := by
  constructor
  · decide
  · decide

/-- Claim C9 counterexample: encoding a transfer of amount 42449330000 to the
all-0x12 recipient yields an amount word different from the one the spec
scenario quotes; moreover the quoted word is only 62 characters long (not 64)
and decodes to 42626081488, not 42449330000. -/
theorem C9_counterexample :
    lastN 64 (encode_transfer_data rcpt12 42449330000) ≠ spec_c9_amount_word
      ∧ spec_c9_amount_word.length = 62
      ∧ hexToNat spec_c9_amount_word = 42626081488 := by
  refine ⟨?_, ?_, ?_⟩
  · decide
  · decide
  · decide

/-- Claim C9 (amended): encoding a transfer of amount 42449330000 to the
all-0x12 recipient yields the 64-hex-character amount word
55 zeros ++ `9e22d5f50` (since `hex(42449330000) = 0x9e22d5f50`), which
decodes back to 42449330000. -/
theorem C9_amount_word :
    lastN 64 (encode_transfer_data rcpt12 42449330000)
        = List.replicate 55 '0' ++ ['9', 'e', '2', '2', 'd', '5', 'f', '5', '0']
      ∧ hexToNat (lastN 64 (encode_transfer_data rcpt12 42449330000)) = 42449330000 := by
  constructor
  · decide
  · decide

/-- Claim C3 counterexample: the source does NOT deduplicate owners — for a
list repeating the same owner twice the blob contains that owner's 65-byte
entry twice (262 characters in all), not the single deduplicated entry the
claim describes. -/
theorem C3_counterexample :
    create_multiple_approved_signatures [addrOnes, addrOnes]
        = '0' :: 'x' :: (create_approved_hash_signature addrOnes
            ++ create_approved_hash_signature addrOnes)
      ∧ create_multiple_approved_signatures [addrOnes, addrOnes]
        ≠ '0' :: 'x' :: create_approved_hash_signature addrOnes := by
  constructor
  · decide
  · decide

/-- Claim C3 (amended): for every list of well-formed `0x`-prefixed 40-hex
owner addresses, the blob is the concatenation of the owners' 130-hex-char
entries sorted (non-strictly) ascending by address value with duplicates
retained: the output is invariant under permutation of the input list, its
length is `2 + 130 × count` characters for `count` input owners (the claim's
`130 × count` hex characters behind the `0x` prefix), and the sorted owner
sequence is ascending by numeric address value — in particular an owner
starting with byte 0x01 precedes one starting with byte 0x02 regardless of
call order. -/
theorem C3_assemble_sorted (l l' : List (List Char)) (hperm : l.Perm l')
    (hwf : ∀ a ∈ l, wfAddrB a = true) (_hne : l ≠ []) :
    create_multiple_approved_signatures l = create_multiple_approved_signatures l'
      ∧ (create_multiple_approved_signatures l).length = 2 + 130 * l.length
      ∧ (List.insertionSort addrLe (l.map toLowerL)).Pairwise
          (fun a b => hexToNat (a.drop 2) ≤ hexToNat (b.drop 2)) := by
  refine ⟨?_, ?_, ?_⟩
  · have hmap : (l.map toLowerL).Perm (l'.map toLowerL) := hperm.map _
    have hsorted_eq : List.insertionSort addrLe (l.map toLowerL)
        = List.insertionSort addrLe (l'.map toLowerL) := by
      refine List.eq_of_perm_of_sorted ?_ (List.sorted_insertionSort addrLe _)
        (List.sorted_insertionSort addrLe _)
      exact (List.perm_insertionSort addrLe _).trans
        (hmap.trans (List.perm_insertionSort addrLe _).symm)
    unfold create_multiple_approved_signatures
    rw [hsorted_eq]
  · unfold create_multiple_approved_signatures
    rw [List.length_cons, List.length_cons,
      flatten_length_const create_approved_hash_signature 130 _
        (fun s hs => approved_sig_length (sorted_mem_wf hwf s hs).1)]
    have hlen : (List.insertionSort addrLe (l.map toLowerL)).length = l.length := by
      rw [(List.perm_insertionSort addrLe _).length_eq, List.length_map]
    rw [hlen]
    omega
  · have hsorted := List.sorted_insertionSort addrLe (l.map toLowerL)
    refine List.Pairwise.imp_of_mem ?_ hsorted
    intro a b hma hmb hab
    obtain ⟨hwa, hla⟩ := sorted_mem_wf hwf a hma
    obtain ⟨hwb, hlb⟩ := sorted_mem_wf hwf b hmb
    obtain ⟨hsa, hlena, _⟩ := wfAddrB_elim hwa
    obtain ⟨hsb, hlenb, _⟩ := wfAddrB_elim hwb
    have hlex : lexLe (a.drop 2) (b.drop 2) = true := by
      have h1 : lexLe a b = true := hab
      rw [hsa, hsb, lexLe_cons_same, lexLe_cons_same] at h1
      exact h1
    exact lexLe_hexToNat_le _ _ (by rw [hlena, hlenb]) hla hlb hlex

/-- Witness for the claim C3 amended theorem: two owners differing in the
leading byte (0x01 vs 0x02), submitted in both orders, give the same
262-character blob with the owner sequence ascending by address value. -/
theorem C3_assemble_sorted_witness :
    create_multiple_approved_signatures [addr02, addr01]
        = create_multiple_approved_signatures [addr01, addr02]
      ∧ (create_multiple_approved_signatures [addr02, addr01]).length = 262
      ∧ (List.insertionSort addrLe ([addr02, addr01].map toLowerL)).Pairwise
          (fun a b => hexToNat (a.drop 2) ≤ hexToNat (b.drop 2)) := by
  have h := C3_assemble_sorted [addr02, addr01] [addr01, addr02]
    (List.Perm.swap addr01 addr02 []) (by decide) (by decide)
  refine ⟨h.1, ?_, h.2.2⟩
  have h2 := h.2.1
  simpa using h2

/-- Claim C10: decoding the output of `encode_transfer_data` recovers the
`0xa9059cbb` selector, the recipient as its lower-cased `0x`-prefixed hex
form, and exactly the original amount, for every 20-byte recipient and every
amount below 2^256. -/
theorem C10_decode_encode (recipient : List Nat) (amount : Nat)
    (hr : recipient.length = 20) (hb : ∀ x ∈ recipient, x < 256)
    (ha : amount < 2 ^ 256) :
    decode_transfer_data (encode_transfer_data recipient amount)
      = ⟨'0' :: 'x' :: transferSelChars, transferSigText.data,
         '0' :: 'x' :: bytesToHexL recipient, amount⟩ := by
  have h40 : (bytesToHexL recipient).length = 40 := by
    rw [bytesToHexL_length, hr]
  have h16 : amount < 16 ^ 64 := by
    have : (16 : Nat) ^ 64 = 2 ^ 256 := by norm_num
    omega
  have hAlen : (zfillL (bytesToHexL recipient) 64).length = 64 :=
    zfillL_length_of_le (by omega)
  have hClen : (zfillL (natToHexL amount) 64).length = 64 :=
    zfillL_length_of_le (natToHexL_length_le (by norm_num) h16)
  have hAmem : ∀ c ∈ zfillL (bytesToHexL recipient) 64, c ∈ lowerHexChars :=
    zfillL_mem (bytesToHexL_mem hb)
  have hCmem : ∀ c ∈ zfillL (natToHexL amount) 64, c ∈ lowerHexChars :=
    zfillL_mem natToHexL_mem
  have hSmem : ∀ c ∈ transferSelChars, c ∈ lowerHexChars := by decide
  have hstrip : strip0xAll (encode_transfer_data recipient amount)
      = transferSelChars ++ zfillL (bytesToHexL recipient) 64
          ++ zfillL (natToHexL amount) 64 := by
    unfold encode_transfer_data
    rw [strip0xAll_cons0x]
    refine strip0xAll_eq_self _ ?_
    intro c hc
    rcases List.mem_append.mp hc with h1 | h1
    · rcases List.mem_append.mp h1 with h2 | h2
      · exact mem_lower_ne_x c (hSmem c h2)
      · exact mem_lower_ne_x c (hAmem c h2)
    · exact mem_lower_ne_x c (hCmem c h1)
  have hsel8 : transferSelChars.length = 8 := by decide
  have htake8 : (transferSelChars ++ zfillL (bytesToHexL recipient) 64
      ++ zfillL (natToHexL amount) 64).take 8 = transferSelChars := by
    rw [List.append_assoc]
    exact List.take_left' hsel8
  have htake72 : (transferSelChars ++ zfillL (bytesToHexL recipient) 64
      ++ zfillL (natToHexL amount) 64).take 72
      = transferSelChars ++ zfillL (bytesToHexL recipient) 64 :=
    List.take_left' (by rw [List.length_append, hsel8, hAlen])
  have hdrop72 : (transferSelChars ++ zfillL (bytesToHexL recipient) 64
      ++ zfillL (natToHexL amount) 64).drop 72 = zfillL (natToHexL amount) 64 :=
    List.drop_left' (by rw [List.length_append, hsel8, hAlen])
  have hmid : (transferSelChars ++ zfillL (bytesToHexL recipient) 64).drop 8
      = zfillL (bytesToHexL recipient) 64 := List.drop_left' hsel8
  have hlastA : lastN 40 (zfillL (bytesToHexL recipient) 64)
      = bytesToHexL recipient := by
    unfold zfillL
    exact lastN_append h40
  have hCamount : hexToNat ((zfillL (natToHexL amount) 64).take 64) = amount := by
    rw [List.take_of_length_le (le_of_eq hClen), hexToNat_zfill, hexToNat_natToHexL]
  simp only [decode_transfer_data]
  rw [hstrip, htake8, htake72, hmid, hlastA, hdrop72, hCamount]

/-- Witness for the claim C10 theorem at a concrete recipient and amount. -/
theorem C10_decode_encode_witness :
    decode_transfer_data (encode_transfer_data rcpt12 42)
      = ⟨'0' :: 'x' :: transferSelChars, transferSigText.data,
         '0' :: 'x' :: bytesToHexL rcpt12, 42⟩ :=
  C10_decode_encode rcpt12 42 (by decide) (by decide) (by norm_num)

/-- Claim C6: each batch entry is encoded as
`kind_byte(1) ++ target(20) ++ value(32) ++ data_length(32) ++ data` (the
kind byte being the operation code, 0 for Call and 1 for DelegateCall); the
batch concatenates the per-entry encodings in the caller-supplied order to
form the inner payload and wraps it as
`8d80ff0a ++ left_pad32(32) ++ left_pad32(length(inner)) ++ inner`; the inner
payload length is the sum of `85 + data length` over the entries — 85 bytes
for a single zero-value empty-data Call entry, making the outer length word
0x55 (see the witness). -/
theorem C6_encode_batch (txs : List MSTx) (_hne : txs ≠ [])
    (hwf : ∀ tx ∈ txs, tx.toAddr.length = 20 ∧ tx.operation < 256
      ∧ tx.value < 2 ^ 256 ∧ tx.data.length < 2 ^ 256) :
    (∀ tx ∈ txs, encode_multisend_transaction tx = some (msEntryBytes tx))
      ∧ create_multisend_data txs
        = some ('0' :: 'x' :: (multisendSelChars
            ++ zfillL (natToHexL 32) 64
            ++ zfillL (natToHexL ((txs.map msEntryBytes).flatten).length) 64
            ++ bytesToHexL ((txs.map msEntryBytes).flatten)))
      ∧ ((txs.map msEntryBytes).flatten).length
        = (txs.map (fun tx => 85 + tx.data.length)).sum := by
  have hper : ∀ tx ∈ txs, encode_multisend_transaction tx = some (msEntryBytes tx) := by
    intro tx htx
    obtain ⟨_, hop, hv, hd⟩ := hwf tx htx
    exact msEntry_encode hop hv hd
  refine ⟨hper, ?_, ?_⟩
  · unfold create_multisend_data
    rw [encodeEntries_eq hper]
  · rw [List.length_flatten, List.map_map]
    refine congrArg List.sum (List.map_congr_left ?_)
    intro tx htx
    obtain ⟨hto, hop, hv, hd⟩ := hwf tx htx
    simp only [Function.comp_apply]
    exact msEntry_length hto hop hv hd

/-- Witness for the claim C6 theorem: a batch of one zero-value Call entry
with empty data has an inner payload of exactly 85 bytes and an outer length
word equal to 0x55 (62 zeros then `55`). -/
theorem C6_encode_batch_witness :
    create_multisend_data [msTx0]
        = some ('0' :: 'x' :: (multisendSelChars
            ++ zfillL (natToHexL 32) 64
            ++ zfillL (natToHexL (([msTx0].map msEntryBytes).flatten).length) 64
            ++ bytesToHexL (([msTx0].map msEntryBytes).flatten)))
      ∧ (([msTx0].map msEntryBytes).flatten).length = 85
      ∧ zfillL (natToHexL (([msTx0].map msEntryBytes).flatten).length) 64
        = List.replicate 62 '0' ++ ['5', '5'] := by
  have h := C6_encode_batch [msTx0] (by decide) (by decide)
  refine ⟨h.2.1, ?_, ?_⟩
  · decide
  · decide

/-- Claim C2: for every well-formed transaction record (20-byte addresses,
fields below 2^256, operation a byte), the signing digest computed by
`calculate_tx_hash` equals
`hash(0x19 ++ 0x01 ++ domain_separator ++ struct_hash)` where the struct
hash is the hash of the typehash word followed by the record's field words
in declared order — to, value, hash(data) (the data is hashed, not embedded),
operation as uint8, safeTxGas, baseGas, gasPrice, gasToken, refundReceiver,
nonce — each rendered as a 32-byte word. -/
theorem C2_signing_digest (keccak : List Nat → List Nat) (safe_address : List Nat)
    (chain_id : Nat) (tx : SafeTx)
    (hk : ∀ bs, (keccak bs).length = 32)
    (hsafe : safe_address.length = 20) (hchain : chain_id < 2 ^ 256)
    (hto : tx.toAddr.length = 20) (hval : tx.value < 2 ^ 256)
    (hop : tx.operation < 256) (hg1 : tx.safeTxGas < 2 ^ 256)
    (hg2 : tx.baseGas < 2 ^ 256) (hg3 : tx.gasPrice < 2 ^ 256)
    (hgt : tx.gasToken.length = 20) (hrr : tx.refundReceiver.length = 20)
    (hn : tx.nonce < 2 ^ 256) :
    calculate_tx_hash keccak safe_address chain_id tx
      = some (spec_signing_digest keccak chain_id safe_address tx) := by
  have h256 : (256 : Nat) ^ 32 = 2 ^ 256 := by norm_num
  have eb : ∀ bs : List Nat, encAbi .bytes32 (.b32 (keccak bs)) = some (keccak bs) := by
    intro bs
    simp [encAbi, hk]
  have ea : ∀ bs : List Nat, bs.length = 20 →
      encAbi .address (.addr bs) = some (List.replicate 12 0 ++ bs) := by
    intro bs h
    simp [encAbi, h]
  have eu : ∀ n : Nat, n < 2 ^ 256 →
      encAbi .uint256 (.num n) = some (bePad 32 n) := by
    intro n h
    simp only [encAbi, toBytesBE?, h256]
    rw [if_pos h]
  have e8 : encAbi .uint8 (.num tx.operation) = some (bePad 32 tx.operation) := by
    simp [encAbi, hop]
  have ea1 := ea safe_address hsafe
  have ea2 := ea tx.toAddr hto
  have ea3 := ea tx.gasToken hgt
  have ea4 := ea tx.refundReceiver hrr
  have eu1 := eu chain_id hchain
  have eu2 := eu tx.value hval
  have eu3 := eu tx.safeTxGas hg1
  have eu4 := eu tx.baseGas hg2
  have eu5 := eu tx.gasPrice hg3
  have eu6 := eu tx.nonce hn
  simp [calculate_tx_hash, codecEncode, encodeAll, eb, ea1, ea2, ea3, ea4,
    eu1, eu2, eu3, eu4, eu5, eu6, e8,
    spec_signing_digest, spec_domain_separator, spec_struct_hash]

/-- Witness for the claim C2 theorem at a concrete 32-byte-output hash
function, Safe address, chain id and record. -/
theorem C2_signing_digest_witness :
    calculate_tx_hash kArb (List.replicate 20 0) 1 txW
      = some (spec_signing_digest kArb 1 (List.replicate 20 0) txW) :=
  C2_signing_digest kArb (List.replicate 20 0) 1 txW
    (fun bs => by simp [kArb]) (by decide) (by norm_num) (by decide) (by decide)
    (by decide) (by decide) (by decide) (by decide) (by decide) (by decide)
    (by decide)

end SafeUtils
